import Mathlib

/-!
Verification of the TextSense audio-transcription subsystem.

Text is modelled as `List Char` (named `Str`), mirroring Python strings
character by character.  Times are modelled as exact rationals (`ℚ`);
the source computes with floats, and every property verified here is
insensitive to float rounding (field presence, emptiness, ordering,
token counts), except where an explicit rounding function is modelled.

Two groups of definitions appear below:
* faithful shallow embeddings of the code in `src/clean-hf-space/app.py`,
  `src/textsense-audio-text/app.py` and `src/audio_transcription.py`;
* definitions marked "Modelled from the spec" for the chunked-window
  pipeline (Chunk Planner, Overlap Reconciler, Segment Assembler, SRT
  formatting), whose implementation is not present under `src/` — only
  the specification describes it.
-/

namespace TextSense

/-- Characters of a Python string, in order. -/
abbrev Str := List Char

/-- ASCII whitespace recognised by Python `str.strip()` / `str.split()`. -/
def isWsChar (c : Char) : Bool :=
  c == ' ' || c == '\t' || c == '\n' || c == '\r' || c == '\x0b' || c == '\x0c'

/-- Python `s.strip()`: remove leading and trailing whitespace. -/
def pstrip (s : Str) : Str :=
  (s.dropWhile isWsChar).rdropWhile isWsChar

/-- Helper for `tokens`: accumulates the current (reversed) token. -/
def tokensAux : List Char → List Char → List Str
  | [], acc => if acc.isEmpty then [] else [acc.reverse]
  | c :: rest, acc =>
    if isWsChar c then
      if acc.isEmpty then tokensAux rest [] else acc.reverse :: tokensAux rest []
    else tokensAux rest (c :: acc)

/-- Python `s.split()`: whitespace-delimited tokens, empty tokens dropped. -/
def tokens (s : Str) : List Str := tokensAux s []

/-- Skip the whitespace before and the characters of one token. -/
def dropOneTok (s : Str) : Str :=
  (s.dropWhile isWsChar).dropWhile (fun c => !(isWsChar c))

def dropToksAux : Nat → Str → Str
  | 0, s => s
  | k + 1, s => dropToksAux k (dropOneTok s)

/-- Remove the first `k` whitespace-delimited tokens of `s` (and the
whitespace around them), leaving the rest of `s` untouched. -/
def dropTokens (k : Nat) (s : Str) : Str :=
  (dropToksAux k s).dropWhile isWsChar

/-! ## Chunk Planner

Modelled from the spec: no chunk-planning code exists under `src/`;
spec §4.1 defines it.  Windows are half-open sample ranges `(start, end)`.
`windowsFrom` iterates "emit a window of `maxc` samples, step back by
`ov` samples", with `fuel` bounding the recursion. -/

def windowsFrom (total maxc ov : Nat) : Nat → Nat → List (Nat × Nat)
  | 0, s => [(s, min (s + maxc) total)]
  | fuel + 1, s =>
    let e := min (s + maxc) total
    if e < total then (s, e) :: windowsFrom total maxc ov fuel (e - ov)
    else [(s, e)]

/-- Modelled from the spec: Chunk Planner over sample counts (spec §4.1).
A single window when the waveform fits in one chunk, otherwise windows of
`maxc` samples, each subsequent one starting `ov` samples before the
previous end, the final window clamped at `total`. -/
def chunkPlan (total maxc ov : Nat) : List (Nat × Nat) :=
  if total ≤ maxc then [(0, total)] else windowsFrom total maxc ov total 0

/-- Modelled from the spec: planner entry point taking durations in seconds
and a sample rate, converting to sample counts (spec §4.1). -/
def planChunks (totalSamples sampleRate maxChunkSeconds overlapSeconds : Nat) :
    List (Nat × Nat) :=
  chunkPlan totalSamples (maxChunkSeconds * sampleRate) (overlapSeconds * sampleRate)

/-! ## Overlap Reconciler

Modelled from the spec: no reconciliation code exists under `src/`;
spec §4.3 defines the heuristic and its constants (50-character guard,
10-token boundary windows, intersection threshold 3, drop 5 tokens). -/

/-- Size of the set intersection of the last 10 tokens of `prev` with the
first 10 tokens of `curr` (duplicates collapsed, spec §4.3 steps 2–3). -/
def interCount (prev curr : Str) : Nat :=
  ((((tokens prev).reverse.take 10).dedup).filter
    (fun t => decide (t ∈ (tokens curr).take 10))).length

/-- Modelled from the spec: Overlap Reconciler (spec §4.3).  Returns the
possibly prefix-trimmed text and the possibly advanced window start. -/
def reconcile (prev curr : Str) (ws we : ℚ) : Str × ℚ :=
  if prev.length < 50 then (curr, ws)
  else if interCount prev curr ≤ 3 then (curr, ws)
  else if (tokens curr).length ≤ 10 then (curr, ws)
  else (dropTokens 5 curr, ws + 5 * (we - ws) / ((tokens curr).length : ℚ))

/-! ## Segment Assembler and pipeline control flow

Modelled from the spec: spec §2 and §4.4 describe the per-window loop —
reconcile against the previous accepted segment, skip windows whose final
text is empty, otherwise emit a segment with the next 1-based index. -/

structure Segment where
  idx : Nat
  text : Str
  startS : ℚ
  endS : ℚ
  deriving DecidableEq, Repr

/-- Modelled from the spec: the sequential window loop (spec §2, §4.4).
Each element pairs a planned sample window with its decoded text. -/
def runPipeline (sr : Nat) : List ((Nat × Nat) × Str) → Str → Nat → List Segment
  | [], _, _ => []
  | (w, txt) :: rest, prevText, nextIdx =>
    let ws : ℚ := (w.1 : ℚ) / (sr : ℚ)
    let we : ℚ := (w.2 : ℚ) / (sr : ℚ)
    let r := reconcile prevText txt ws we
    let t := pstrip r.1
    if t.isEmpty then runPipeline sr rest prevText nextIdx
    else ⟨nextIdx, t, r.2, we⟩ :: runPipeline sr rest t (nextIdx + 1)

/-- Modelled from the spec: full transcription of planned windows zipped
with their decoded texts (spec §2 control flow). -/
def transcriptSegments (totalSamples sr maxS ovS : Nat) (decoded : List Str) :
    List Segment :=
  runPipeline sr ((planChunks totalSamples sr maxS ovS).zip decoded) [] 1

/-! ## Shared result shape of the two response processors

`_process_whisper_response` (src/clean-hf-space/app.py) and
`_process_elevenlabs_response` (src/textsense-audio-text/app.py) build
Python dicts; `JVal` models the JSON values and key order, `Chunk` the
per-segment dict before serialization (`words = none` when the key is
never added). -/

inductive JVal where
  | str : Str → JVal
  | num : ℚ → JVal
  | arr : List JVal → JVal
  | obj : List (String × JVal) → JVal

/-- Top-level keys of a JSON object (empty for non-objects). -/
def keysOf : JVal → List String
  | .obj l => l.map Prod.fst
  | _ => []

/-- Python `round(x, 3)` on exact rationals: round half to even at the
third decimal place. -/
def roundHalfEven (q : ℚ) : ℤ :=
  let f := ⌊q⌋
  if q - f < 1 / 2 then f
  else if 1 / 2 < q - f then f + 1
  else if f % 2 = 0 then f else f + 1

def round3 (q : ℚ) : ℚ := (roundHalfEven (q * 1000) : ℚ) / 1000

/-- One element of the processors' `chunks` lists: the `"text"` and
`"timestamp"` entries are always set, the `"words"` entry only
conditionally (`none` = key absent). -/
structure Chunk where
  text : Str
  ts : ℚ × ℚ
  words : Option (List (Str × ℚ × ℚ))
  deriving DecidableEq

def wordToJ (w : Str × ℚ × ℚ) : JVal :=
  .obj [("text", .str w.1), ("timestamp", .arr [.num w.2.1, .num w.2.2])]

/-- Serialize a chunk dict in the key order the code builds it. -/
def chunkToJ (c : Chunk) : JVal :=
  .obj ([("text", .str c.text), ("timestamp", .arr [.num c.ts.1, .num c.ts.2])] ++
    (match c.words with
     | none => []
     | some ws => [("words", .arr (ws.map wordToJ))]))

/-! ## `_process_whisper_response` (src/clean-hf-space/app.py) -/

/-- One element of `whisper_result.segments`. -/
structure WSeg where
  text : Str
  tStart : ℚ
  tEnd : ℚ
  deriving DecidableEq

/-- One element of `whisper_result.words`. -/
structure WWord where
  word : Str
  tStart : ℚ
  tEnd : ℚ
  deriving DecidableEq

/-- The OpenAI verbose_json response object; `none` models a missing
attribute (`hasattr` false). -/
structure WhisperResult where
  text : Option Str
  language : Option Str
  segments : Option (List WSeg)
  words : Option (List WWord)

/-- Python `whisper_result.text.strip() if hasattr(...) else ""`. -/
def whisperFullText (wr : WhisperResult) : Str :=
  match wr.text with
  | some t => pstrip t
  | none => []

/-- Python `whisper_result.language if hasattr(...) else "en"`. -/
def whisperLanguage (wr : WhisperResult) : Str :=
  (wr.language).getD ("en".data)

/-- Per-segment dict of the main loop: stripped text, rounded timestamp,
and the filtered word list added only when requested, available and
non-empty. -/
def mkWhisperSeg (wr : WhisperResult) (iw : Bool) (seg : WSeg) : Chunk :=
  let base : Chunk := ⟨pstrip seg.text, (round3 seg.tStart, round3 seg.tEnd), none⟩
  match iw, wr.words with
  | true, some ws =>
    if !ws.isEmpty then
      let sw := (ws.filter (fun w =>
          decide (seg.tStart ≤ w.tStart) && decide (w.tStart ≤ seg.tEnd))).map
        (fun w => (w.word, round3 w.tStart, round3 w.tEnd))
      if !sw.isEmpty then { base with words := some sw } else base
    else base
  | _, _ => base

/-- Word list of the fallback segment: attached when requested and the
response carries a non-empty word list. -/
def whisperFallbackWords (wr : WhisperResult) (iw : Bool) :
    Option (List (Str × ℚ × ℚ)) :=
  match iw, wr.words with
  | true, some ws =>
    if !ws.isEmpty then
      some (ws.map (fun w => (w.word, round3 w.tStart, round3 w.tEnd)))
    else none
  | _, _ => none

/-- Fallback branch: a single segment with the full text (skipped when
the full text is empty). -/
def whisperFallback (wr : WhisperResult) (iw : Bool) : List Chunk :=
  if !(whisperFullText wr).isEmpty then
    [⟨whisperFullText wr, (0, 0), whisperFallbackWords wr iw⟩]
  else []

/-- The `segments` list `_process_whisper_response` builds. -/
def whisperChunks (wr : WhisperResult) (iw : Bool) : List Chunk :=
  match wr.segments with
  | some l => if !l.isEmpty then l.map (mkWhisperSeg wr iw) else whisperFallback wr iw
  | none => whisperFallback wr iw

/-- The dict returned by `_process_whisper_response`, in key order. -/
def processWhisper (wr : WhisperResult) (iw : Bool) : JVal :=
  .obj [("text", .str (whisperFullText wr)),
        ("chunks", .arr ((whisperChunks wr iw).map chunkToJ)),
        ("engine", .str ("openai_whisper".data)),
        ("model", .str ("whisper-1".data)),
        ("language", .str (whisperLanguage wr))]

/-! ## `_process_elevenlabs_response` (src/textsense-audio-text/app.py) -/

/-- One element of `elevenlabs_result["words"]`; `none` fields model
missing dict keys (`.get` defaults are applied at use sites, as in the
code). -/
structure EWord where
  type : Option Str
  text : Option Str
  tStart : Option ℚ
  tEnd : Option ℚ
  speaker : Option Str

/-- The ElevenLabs response object. -/
structure EResult where
  text : Option Str
  language : Option Str
  words : Option (List EWord)

/-- An accumulated word inside the current segment group. -/
structure AccW where
  text : Str
  tStart : ℚ
  tEnd : ℚ
  deriving DecidableEq

/-- Python truthiness of `current_speaker` (a string or `None`). -/
def spkTruthy : Option Str → Bool
  | some s => !s.isEmpty
  | none => false

/-- Python `word_text.endswith(('.', '!', '?'))`. -/
def endsPunct (s : Str) : Bool :=
  match s.getLast? with
  | some c => c == '.' || c == '!' || c == '?'
  | none => false

/-- Python `"".join(w["text"] for w in current_segment_words)`. -/
def joinStr (l : List Str) : Str := l.foldr (· ++ ·) []

/-- Segment dict flushed from the accumulated words; the `"words"` key is
added exactly when word timestamps were requested. -/
def mkESeg (iw : Bool) (cur : List AccW) : Chunk :=
  ⟨pstrip (joinStr (cur.map (·.text))),
   (round3 ((cur.headD ⟨[], 0, 0⟩).tStart), round3 ((cur.getLastD ⟨[], 0, 0⟩).tEnd)),
   if iw then some (cur.map (fun w => (w.text, round3 w.tStart, round3 w.tEnd)))
   else none⟩

/-- The word-grouping loop of `_process_elevenlabs_response`: skip
non-word and empty-text entries, flush the accumulated group on a speaker
change or after a sentence-ending word, and flush the trailing group at
the end. -/
def elLoop (iw : Bool) : List EWord → List AccW → Option Str → List Chunk → List Chunk
  | [], cur, _, acc => if !cur.isEmpty then acc ++ [mkESeg iw cur] else acc
  | wd :: rest, cur, spk, acc =>
    if wd.type ≠ some ("word".data) then elLoop iw rest cur spk acc
    else
      let wt := pstrip (wd.text.getD [])
      if wt.isEmpty then elLoop iw rest cur spk acc
      else
        let sid := wd.speaker.getD ("speaker_0".data)
        let brk := (spkTruthy spk && decide (spk ≠ some sid)) ||
          (!cur.isEmpty && endsPunct wt)
        if brk then
          elLoop iw rest [⟨wt, wd.tStart.getD 0, wd.tEnd.getD 0⟩] (some sid)
            (if !cur.isEmpty then acc ++ [mkESeg iw cur] else acc)
        else
          elLoop iw rest (cur ++ [⟨wt, wd.tStart.getD 0, wd.tEnd.getD 0⟩]) (some sid) acc

/-- Python `elevenlabs_result.get("text", "").strip()`. -/
def elevenFullText (er : EResult) : Str := pstrip (er.text.getD [])

/-- The `segments` list `_process_elevenlabs_response` builds: the
single-full-text fallback when `words` is empty, otherwise the grouping
loop. -/
def elChunks (er : EResult) (iw : Bool) : List Chunk :=
  let ft := elevenFullText er
  match er.words.getD [] with
  | [] => if !ft.isEmpty then [⟨ft, (0, 0), none⟩] else []
  | w :: ws => elLoop iw (w :: ws) [] none []

/-- The dict returned by `_process_elevenlabs_response`, in key order. -/
def processEleven (er : EResult) (iw : Bool) : JVal :=
  .obj [("text", .str (elevenFullText er)),
        ("chunks", .arr ((elChunks er iw).map chunkToJ)),
        ("engine", .str ("elevenlabs".data)),
        ("model", .str ("eleven_scribe_v1".data)),
        ("language", .str ((er.language).getD ("en".data)))]

/-! ## The transcription wrappers

`_transcribe_with_whisper` / `_transcribe_with_elevenlabs`: the decode
exchange (API call, or non-200 status for ElevenLabs) is modelled by its
outcome `decodeResult`; any exception raised inside the `try` block is
caught and re-raised as `RuntimeError("<engine> transcription failed:
...")`.  The missing-key check precedes the `try` block. -/

def transcribeWhisper (clientConfigured : Bool)
    (decodeResult : Except Str WhisperResult) (iw : Bool) : Except Str JVal :=
  if !clientConfigured then .error ("OPENAI_API_KEY not configured".data)
  else
    match decodeResult with
    | .ok r => .ok (processWhisper r iw)
    | .error e => .error ("OpenAI Whisper transcription failed: ".data ++ e)

def transcribeEleven (keyConfigured : Bool)
    (decodeResult : Except Str EResult) (iw : Bool) : Except Str JVal :=
  if !keyConfigured then .error ("ELEVENLABS_API_KEY not configured".data)
  else
    match decodeResult with
    | .ok r => .ok (processEleven r iw)
    | .error e => .error ("ElevenLabs transcription failed: ".data ++ e)

/-! ## `AudioTranscriber` (src/audio_transcription.py) -/

/-- Python `c.lower()` restricted to ASCII, as used on format strings. -/
def toLowerStr (s : Str) : Str := s.map Char.toLower

/-- Models `_normalize_audio_format`: falsy input maps to `""`; otherwise
lowercase, strip surrounding whitespace, strip leading dots, then map the
`mpeg`/`wave` aliases. -/
def normalizeAudioFormat (audioFormat : Option Str) : Str :=
  match audioFormat with
  | none => []
  | some s =>
    if s.isEmpty then []
    else
      let fmt := (pstrip (toLowerStr s)).dropWhile (· == '.')
      if fmt = "mp3".data ∨ fmt = "mpeg".data then "mp3".data
      else if fmt = "wav".data ∨ fmt = "wave".data then "wav".data
      else fmt

/-- Python `needle in hay` on strings: substring containment. -/
def containsSub (needle : Str) : Str → Bool
  | [] => needle.isEmpty
  | c :: rest => needle.isPrefixOf (c :: rest) || containsSub needle rest

/-- The HTTP request `transcribe` would issue (built only after the
format check passes): multipart upload when the URL contains
`/audio/transcriptions`, chat-completion JSON otherwise. -/
structure TranscribeRequest where
  multipart : Bool
  format : Str
  deriving DecidableEq

/-- Models `AudioTranscriber.transcribe` up to the network exchange: raises
`ValueError` before any request when the normalized format is not
`mp3`/`wav`, otherwise returns the request it issues. -/
def transcribeRequest (apiUrl : Str) (audioFormat : Str) :
    Except Str TranscribeRequest :=
  let nf := normalizeAudioFormat (some audioFormat)
  if nf ≠ "mp3".data ∧ nf ≠ "wav".data then
    .error ("Unsupported audio format. Only mp3 and wav are supported.".data)
  else
    .ok ⟨containsSub ("/audio/transcriptions".data) apiUrl, nf⟩

/-! ## SRT timestamp formatting

Modelled from the spec: no SRT rendering code exists under `src/`;
spec §4.4 defines `seconds -> "HH:MM:SS,mmm"` (zero-padded, comma decimal
separator) with rounding to milliseconds at the serialization boundary,
and §6 the `"HH:MM:SS,mmm --> HH:MM:SS,mmm"` pair format. -/

def digitChar : Nat → Char
  | 0 => '0' | 1 => '1' | 2 => '2' | 3 => '3' | 4 => '4'
  | 5 => '5' | 6 => '6' | 7 => '7' | 8 => '8' | 9 => '9'
  | _ => '*'

/-- Decimal digits of `n`, most significant first. -/
def natStr (n : Nat) : Str :=
  if _h : n < 10 then [digitChar n]
  else natStr (n / 10) ++ [digitChar (n % 10)]
  decreasing_by exact Nat.div_lt_self (by omega) (by omega)

/-- Zero-pad the decimal rendering of `n` to at least `k` characters. -/
def pad (k n : Nat) : Str :=
  List.replicate (k - (natStr n).length) '0' ++ natStr n

/-- Modelled from the spec: render a duration of `t` milliseconds as
`HH:MM:SS,mmm` (spec §4.4). -/
def msToSRT (t : Nat) : Str :=
  pad 2 (t / 3600000) ++ ':' :: (pad 2 (t / 60000 % 60) ++ ':' ::
    (pad 2 (t / 1000 % 60) ++ ',' :: pad 3 (t % 1000)))

/-- Modelled from the spec: seconds to `HH:MM:SS,mmm`, rounded to
milliseconds at the serialization boundary (spec §4.4). -/
def formatSRTtime (q : ℚ) : Str := msToSRT (roundHalfEven (q * 1000)).toNat

/-- Modelled from the spec: the `srt_timestamp` pair rendering
`"HH:MM:SS,mmm --> HH:MM:SS,mmm"` (spec §3, §6). -/
def formatSRTpair (a b : ℚ) : Str :=
  formatSRTtime a ++ " --> ".data ++ formatSRTtime b

def splitOnAux (c : Char) : Str → Str → List Str
  | [], acc => [acc.reverse]
  | x :: r, acc =>
    if x == c then acc.reverse :: splitOnAux c r [] else splitOnAux c r (x :: acc)

/-- Split a string at every occurrence of `c` (separators dropped). -/
def splitOnChar (c : Char) (s : Str) : List Str := splitOnAux c s []

/-- Parse a run of decimal digits, most significant first. -/
def parseNat (s : Str) : Nat := s.foldl (fun a c => a * 10 + (c.toNat - 48)) 0

/-- Parse `HH:MM:SS,mmm` back to seconds. -/
def parseSRTtime (s : Str) : Option ℚ :=
  match splitOnChar ':' s with
  | [hh, mm, rest] =>
    match splitOnChar ',' rest with
    | [ss, ms] =>
      some ((parseNat hh : ℚ) * 3600 + (parseNat mm : ℚ) * 60 + (parseNat ss : ℚ) +
        (parseNat ms : ℚ) / 1000)
    | _ => none
  | _ => none

/-- Parse `"HH:MM:SS,mmm --> HH:MM:SS,mmm"` back to a pair of seconds. -/
def parseSRTpair (s : Str) : Option (ℚ × ℚ) :=
  match splitOnChar ' ' s with
  | [t1, ar, t2] =>
    if ar = "-->".data then
      match parseSRTtime t1, parseSRTtime t2 with
      | some a, some b => some (a, b)
      | _, _ => none
    else none
  | _ => none

/-! ## Helper lemmas about `pstrip` -/

lemma dropWhile_head_not (p : Char → Bool) (l : Str) (h : 0 < (l.dropWhile p).length) :
    ¬ p ((l.dropWhile p).get ⟨0, h⟩) :=
  List.dropWhile_get_zero_not p l h

lemma pstrip_idem (s : Str) : pstrip (pstrip s) = pstrip s := by
  unfold pstrip
  set x := s.dropWhile isWsChar with hx
  have hpre := List.rdropWhile_prefix isWsChar x
  have hdrop : (x.rdropWhile isWsChar).dropWhile isWsChar = x.rdropWhile isWsChar := by
    rw [List.dropWhile_eq_self_iff]
    intro hl
    have hxlen : 0 < x.length := by
      obtain ⟨t, ht⟩ := hpre
      rw [← ht, List.length_append]
      omega
    have hval : (x.rdropWhile isWsChar).get ⟨0, hl⟩ = x.get ⟨0, hxlen⟩ := by
      simp only [List.get_eq_getElem]
      exact hpre.getElem hl
    rw [hval]
    exact List.dropWhile_get_zero_not isWsChar s hxlen
  rw [hdrop, List.rdropWhile_idempotent]

lemma pstrip_eq_nil_iff (s : Str) :
    pstrip s = [] ↔ ∀ c ∈ s, isWsChar c = true := by
  unfold pstrip
  rw [List.rdropWhile_eq_nil_iff]
  constructor
  · intro h c hc
    have hsplit : s.takeWhile isWsChar ++ s.dropWhile isWsChar = s :=
      List.takeWhile_append_dropWhile isWsChar s
    rw [← hsplit] at hc
    rcases List.mem_append.mp hc with h1 | h2
    · exact List.mem_takeWhile_imp h1
    · exact h c h2
  · intro h c hc
    have hsub : c ∈ s := by
      have hsuf := List.dropWhile_suffix (l := s) isWsChar
      exact hsuf.subset hc
    exact h c hsub

lemma pstrip_ne_nil_of_exists (s : Str) (c : Char) (hc : c ∈ s)
    (hnw : isWsChar c = false) : pstrip s ≠ [] := by
  intro h
  have := (pstrip_eq_nil_iff s).mp h c hc
  rw [hnw] at this
  exact Bool.false_ne_true this

/-- A string that equals its own strip and is non-empty holds a
non-whitespace character. -/
lemma exists_nonws_of_stripped (s : Str) (hne : s ≠ []) (hs : pstrip s = s) :
    ∃ c ∈ s, isWsChar c = false := by
  by_contra h
  push_neg at h
  have hall : ∀ c ∈ s, isWsChar c = true := by
    intro c hc
    have := h c hc
    revert this
    cases isWsChar c <;> simp
  exact hne (hs ▸ (pstrip_eq_nil_iff s).mpr hall)

/-! ## C9 — `AudioTranscriber.transcribe` format validation -/

/-- C9: `AudioTranscriber.transcribe` raises `ValueError` exactly when the
supplied `audio_format` does not normalize to `"mp3"` or `"wav"` (the
normalization lowercases, strips surrounding whitespace and leading dots,
and maps `"mpeg"` to `"mp3"` and `"wave"` to `"wav"`); for such inputs no
HTTP request is issued (the request value exists only in the `ok` case). -/
theorem transcribe_valueError_iff (apiUrl fmt : Str) :
    transcribeRequest apiUrl fmt =
        Except.error ("Unsupported audio format. Only mp3 and wav are supported.".data) ↔
      (normalizeAudioFormat (some fmt) ≠ "mp3".data ∧
        normalizeAudioFormat (some fmt) ≠ "wav".data) := by
  unfold transcribeRequest
  by_cases h : normalizeAudioFormat (some fmt) ≠ "mp3".data ∧
      normalizeAudioFormat (some fmt) ≠ "wav".data
  · simp [h]
  · simp [h]

/-! ## C1 — decode-failure behaviour of the transcription wrappers -/

/-- C1 (counterexample): the claim says a decode failure is recovered by
substituting empty text and never aborts the transcription; in the code a
decode failure makes `_transcribe_with_whisper` /
`_transcribe_with_elevenlabs` raise `RuntimeError`, so the call produces
no result at all. -/
theorem decode_failure_aborts_cex :
    (transcribeWhisper true (Except.error ("boom".data)) false).isOk = false ∧
    (transcribeEleven true (Except.error ("boom".data)) false).isOk = false :=
  ⟨rfl, rfl⟩

/-- C1 (amended): a decode failure aborts the whole transcription call:
the exception is wrapped as `RuntimeError("<engine> transcription failed:
...")` and re-raised (the HTTP route then reports the error); there is no
per-window recovery because the audio is decoded in a single call. -/
theorem decode_failure_propagates (e : Str) (iw : Bool) :
    transcribeWhisper true (Except.error e) iw =
        Except.error ("OpenAI Whisper transcription failed: ".data ++ e) ∧
    transcribeEleven true (Except.error e) iw =
        Except.error ("ElevenLabs transcription failed: ".data ++ e) :=
  ⟨rfl, rfl⟩

/-! ## C2 — fields of the returned result object -/

/-- Sample Whisper response for the C2 counterexample. -/
def wrSample : WhisperResult :=
  ⟨some ("hi".data), some ("en".data), none, none⟩

/-- C2 (counterexample): with timestamps not requested, the processed
result still carries a `"chunks"` key, and carries neither `"duration"`
nor `"total_segments"`. -/
theorem result_fields_cex :
    "duration" ∉ keysOf (processWhisper wrSample false) ∧
    "total_segments" ∉ keysOf (processWhisper wrSample false) ∧
    "chunks" ∈ keysOf (processWhisper wrSample false) := by
  refine ⟨?_, ?_, ?_⟩ <;> simp [processWhisper, keysOf]

/-- C2 (amended): every processed result object has exactly the keys
`text`, `chunks`, `engine`, `model`, `language`, in that order, for both
engines and regardless of whether word timestamps were requested; no
`duration` or `total_segments` field is produced. -/
theorem result_fields (wr : WhisperResult) (er : EResult) (iw iw' : Bool) :
    keysOf (processWhisper wr iw) = ["text", "chunks", "engine", "model", "language"] ∧
    keysOf (processEleven er iw') = ["text", "chunks", "engine", "model", "language"] :=
  ⟨rfl, rfl⟩

/-! ## Helper lemmas for the processor chunk lists -/

lemma mkWhisperSeg_false_words (wr : WhisperResult) (seg : WSeg) :
    (mkWhisperSeg wr false seg).words = none := by
  unfold mkWhisperSeg
  cases wr.words <;> rfl

lemma mkWhisperSeg_text (wr : WhisperResult) (iw : Bool) (seg : WSeg) :
    (mkWhisperSeg wr iw seg).text = pstrip seg.text := by
  unfold mkWhisperSeg
  cases iw <;> cases wr.words
  · rfl
  · rfl
  · rfl
  · dsimp only
    split
    · split <;> rfl
    · rfl

lemma whisperFallback_text (wr : WhisperResult) (iw : Bool) :
    ∀ c ∈ whisperFallback wr iw, c.text = whisperFullText wr := by
  intro c hc
  unfold whisperFallback at hc
  split at hc
  · rcases List.mem_singleton.mp hc with rfl
    rfl
  · cases hc

lemma whisperFallback_false_words (wr : WhisperResult) :
    ∀ c ∈ whisperFallback wr false, c.words = none := by
  intro c hc
  unfold whisperFallback at hc
  split at hc
  · rcases List.mem_singleton.mp hc with rfl
    show whisperFallbackWords wr false = none
    unfold whisperFallbackWords
    cases wr.words <;> rfl
  · cases hc

lemma mem_joinStr {c : Char} {w : Str} {l : List Str} (hw : w ∈ l) (hc : c ∈ w) :
    c ∈ joinStr l := by
  induction l with
  | nil => cases hw
  | cons a t ih =>
    rcases List.mem_cons.mp hw with h | h
    · subst h
      exact List.mem_append.mpr (Or.inl hc)
    · exact List.mem_append.mpr (Or.inr (ih h))

/-- The accumulated-word invariant: every grouped word has a non-empty,
already-stripped text (it was produced by a successful
`word_text = word_data.get("text", "").strip()` check). -/
def accInv (cur : List AccW) : Prop :=
  ∀ w ∈ cur, w.text ≠ [] ∧ pstrip w.text = w.text

lemma mkESeg_text_ne_nil (iw : Bool) (cur : List AccW) (hne : cur ≠ [])
    (hinv : accInv cur) : (mkESeg iw cur).text ≠ [] := by
  obtain ⟨w0, t, rfl⟩ := List.exists_cons_of_ne_nil hne
  obtain ⟨hne0, hstr0⟩ := hinv w0 (List.mem_cons_self w0 t)
  obtain ⟨c, hc, hcw⟩ := exists_nonws_of_stripped w0.text hne0 hstr0
  have hcj : c ∈ joinStr ((w0 :: t).map (·.text)) :=
    mem_joinStr (List.mem_map_of_mem (·.text) (List.mem_cons_self w0 t)) hc
  exact pstrip_ne_nil_of_exists _ c hcj hcw

lemma mkESeg_text_stripped (iw : Bool) (cur : List AccW) :
    pstrip (mkESeg iw cur).text = (mkESeg iw cur).text :=
  pstrip_idem _

/-- Step equation of `elLoop` on the empty word list. -/
lemma elLoop_nil (iw : Bool) (cur : List AccW) (spk : Option Str) (acc : List Chunk) :
    elLoop iw [] cur spk acc =
      if !cur.isEmpty then acc ++ [mkESeg iw cur] else acc :=
  rfl

/-- Step equation of `elLoop` on a cons, with the `let`s inlined. -/
lemma elLoop_cons (iw : Bool) (wd : EWord) (rest : List EWord) (cur : List AccW)
    (spk : Option Str) (acc : List Chunk) :
    elLoop iw (wd :: rest) cur spk acc =
      if wd.type ≠ some ("word".data) then elLoop iw rest cur spk acc
      else if (pstrip (wd.text.getD [])).isEmpty then elLoop iw rest cur spk acc
      else if (spkTruthy spk && decide (spk ≠ some (wd.speaker.getD ("speaker_0".data)))) ||
          (!cur.isEmpty && endsPunct (pstrip (wd.text.getD []))) then
        elLoop iw rest [⟨pstrip (wd.text.getD []), wd.tStart.getD 0, wd.tEnd.getD 0⟩]
          (some (wd.speaker.getD ("speaker_0".data)))
          (if !cur.isEmpty then acc ++ [mkESeg iw cur] else acc)
      else
        elLoop iw rest (cur ++ [⟨pstrip (wd.text.getD []), wd.tStart.getD 0, wd.tEnd.getD 0⟩])
          (some (wd.speaker.getD ("speaker_0".data))) acc :=
  rfl

lemma flush_all (iw : Bool) (p : Chunk → Bool)
    (hmk : ∀ cur : List AccW, cur ≠ [] → accInv cur → p (mkESeg iw cur) = true)
    (cur : List AccW) (acc : List Chunk) (hcur : accInv cur) (hacc : acc.all p = true) :
    (if !cur.isEmpty then acc ++ [mkESeg iw cur] else acc).all p = true := by
  by_cases hc : cur.isEmpty = true
  · rw [hc]
    show acc.all p = true
    exact hacc
  · have hc' : cur.isEmpty = false := by
      revert hc
      cases cur.isEmpty <;> simp
    have hne : cur ≠ [] := by
      intro h
      rw [h] at hc'
      simp at hc'
    rw [hc']
    show (acc ++ [mkESeg iw cur]).all p = true
    rw [List.all_append, hacc, Bool.true_and]
    simp [hmk cur hne hcur]

/-- Master invariant lemma for the ElevenLabs grouping loop: any Boolean
chunk property that holds of every segment flushed from an invariant-
respecting group, and of the chunks accumulated so far, holds of every
chunk the loop returns. -/
lemma elLoop_all (iw : Bool) (p : Chunk → Bool)
    (hmk : ∀ cur : List AccW, cur ≠ [] → accInv cur → p (mkESeg iw cur) = true) :
    ∀ (ws : List EWord) (cur : List AccW) (spk : Option Str) (acc : List Chunk),
      accInv cur → acc.all p = true → (elLoop iw ws cur spk acc).all p = true := by
  intro ws
  induction ws with
  | nil =>
    intro cur spk acc hcur hacc
    rw [elLoop_nil]
    exact flush_all iw p hmk cur acc hcur hacc
  | cons wd rest ih =>
    intro cur spk acc hcur hacc
    rw [elLoop_cons]
    by_cases ht : wd.type ≠ some ("word".data)
    · rw [if_pos ht]
      exact ih cur spk acc hcur hacc
    · rw [if_neg ht]
      by_cases hwt : (pstrip (wd.text.getD [])).isEmpty = true
      case pos =>
        rw [if_pos hwt]
        exact ih cur spk acc hcur hacc
      case neg =>
        rw [if_neg hwt]
        have hwne : pstrip (wd.text.getD []) ≠ [] := by
          intro h
          rw [h] at hwt
          simp at hwt
        have hwstr : pstrip (pstrip (wd.text.getD [])) = pstrip (wd.text.getD []) :=
          pstrip_idem _
        by_cases hb : ((spkTruthy spk &&
            decide (spk ≠ some (wd.speaker.getD ("speaker_0".data)))) ||
            (!cur.isEmpty && endsPunct (pstrip (wd.text.getD [])))) = true
        · rw [if_pos hb]
          refine ih _ _ _ ?_ (flush_all iw p hmk cur acc hcur hacc)
          intro w hw
          rcases List.mem_singleton.mp hw with rfl
          exact ⟨hwne, hwstr⟩
        · rw [if_neg hb]
          refine ih _ _ _ ?_ hacc
          intro w hw
          rcases List.mem_append.mp hw with h | h
          · exact hcur w h
          · rcases List.mem_singleton.mp h with rfl
            exact ⟨hwne, hwstr⟩

/-! ## C10 — `words` key only when word timestamps were requested -/

/-- C10: with `include_words = false` neither processor attaches a
`words` entry to any emitted segment, and a chunk without a `words`
entry serializes to a dict without a `"words"` key. -/
theorem words_key_only_when_requested (wr : WhisperResult) (er : EResult) :
    ((whisperChunks wr false).all fun c => c.words.isNone) = true ∧
    ((elChunks er false).all fun c => c.words.isNone) = true ∧
    (∀ c : Chunk, ("words" ∈ keysOf (chunkToJ c)) ↔ c.words.isSome) := by
  have hfb : (whisperFallback wr false).all (fun c => c.words.isNone) = true := by
    rw [List.all_eq_true]
    intro c hc
    simp [whisperFallback_false_words wr c hc]
  refine ⟨?_, ?_, ?_⟩
  · unfold whisperChunks
    cases hs : wr.segments with
    | none => exact hfb
    | some l =>
      cases hl : l.isEmpty with
      | true => simpa [hl] using hfb
      | false =>
        dsimp only
        rw [hl]
        show ((l.map (mkWhisperSeg wr false)).all fun c => c.words.isNone) = true
        rw [List.all_eq_true]
        intro c hc
        obtain ⟨seg, _, rfl⟩ := List.mem_map.mp hc
        simp [mkWhisperSeg_false_words]
  · rcases hw : er.words.getD [] with _ | ⟨w, ws⟩
    · simp only [elChunks, hw]
      split <;> simp
    · simp only [elChunks, hw]
      refine elLoop_all false (fun c => c.words.isNone) ?_ (w :: ws) [] none [] ?_ rfl
      · intro cur _ _
        simp [mkESeg]
      · intro x hx
        cases hx
  · intro c
    cases hcw : c.words <;> simp [chunkToJ, keysOf, hcw]

/-! ## C6 — segment indexing and empty-text windows -/

/-- Whisper response whose only segment has whitespace-only text, for the
C6 counterexample. -/
def wrEmptySeg : WhisperResult :=
  ⟨some ("hi".data), none, some [⟨"   ".data, 0, 1⟩], none⟩

/-- C6 (counterexample): the emitted chunks carry no `"index"` key at
all, and a window whose stripped text is empty still contributes a
segment (with empty text) in the whisper per-segment branch. -/
theorem segment_index_cex :
    ((whisperChunks wrEmptySeg false).map fun c => keysOf (chunkToJ c)) =
        [["text", "timestamp"]] ∧
    ((whisperChunks wrEmptySeg false).map (·.text)) = [[]] :=
  ⟨rfl, rfl⟩

/-- C6 (amended): emitted segments carry no explicit index field — list
position is the only ordering — and the whisper per-segment branch emits
exactly one chunk per decoder segment, in order, even when a segment's
stripped text is empty (only the fallback branch skips empty text). -/
theorem segment_order_amended :
    (∀ (wr : WhisperResult) (iw : Bool) (l : List WSeg),
      wr.segments = some l → l ≠ [] → (whisperChunks wr iw).length = l.length) ∧
    (∀ c : Chunk, "index" ∉ keysOf (chunkToJ c)) := by
  constructor
  · intro wr iw l hseg hne
    unfold whisperChunks
    rw [hseg]
    have hl : l.isEmpty = false := by
      cases l with
      | nil => exact absurd rfl hne
      | cons a t => rfl
    simp [hl]
  · intro c
    cases hcw : c.words <;> simp [chunkToJ, keysOf, hcw]

/-- C6 (witness): the amended statement applied at the concrete
whitespace-segment response and a concrete chunk. -/
theorem segment_order_amended_witness :
    (whisperChunks wrEmptySeg false).length = 1 ∧
    "index" ∉ keysOf (chunkToJ ⟨"a".data, (0, 0), none⟩) := by
  constructor
  · exact segment_order_amended.1 wrEmptySeg false [⟨"   ".data, 0, 1⟩] rfl (by simp)
  · exact segment_order_amended.2 ⟨"a".data, (0, 0), none⟩

/-! ## C7 — non-empty trimmed segment text -/

/-- Whisper response for the C7 counterexample: one segment whose text is
a single space. -/
def wrWsSeg : WhisperResult :=
  ⟨some ("ok".data), none, some [⟨" ".data, 2, 3⟩], none⟩

/-- C7 (counterexample): the whisper per-segment branch emits a segment
whose (stripped) text is empty, so not every emitted segment has
non-empty text. -/
theorem nonempty_text_cex :
    ((whisperChunks wrWsSeg false).map (·.text)) = [[]] :=
  rfl

/-- C7 (amended): every emitted segment's text is trimmed
(strip-idempotent) in both processors, and in the ElevenLabs processor it
is additionally non-empty (an empty-text group contributes no segment);
the whisper per-segment branch, however, emits a segment even when its
stripped text is empty. -/
theorem chunks_text_trimmed :
    (∀ (er : EResult) (iw : Bool),
      ((elChunks er iw).all fun c => !c.text.isEmpty && (pstrip c.text == c.text)) = true) ∧
    (∀ (wr : WhisperResult) (iw : Bool),
      ((whisperChunks wr iw).all fun c => pstrip c.text == c.text) = true) := by
  constructor
  · intro er iw
    rcases hw : er.words.getD [] with _ | ⟨w, ws⟩
    · simp only [elChunks, hw]
      cases hft : (elevenFullText er).isEmpty with
      | true => simp [hft]
      | false =>
        have hne : elevenFullText er ≠ [] := by
          intro h
          rw [h] at hft
          simp at hft
        have hstr : pstrip (elevenFullText er) = elevenFullText er := pstrip_idem _
        simp [hft, hne, hstr]
    · simp only [elChunks, hw]
      refine elLoop_all iw _ ?_ (w :: ws) [] none [] ?_ rfl
      · intro cur hne hinv
        have h1 := mkESeg_text_ne_nil iw cur hne hinv
        have h2 := mkESeg_text_stripped iw cur
        simp [h1, h2]
      · intro x hx
        cases hx
  · intro wr iw
    have hfull : pstrip (whisperFullText wr) = whisperFullText wr := by
      unfold whisperFullText
      cases wr.text with
      | none => rfl
      | some t => exact pstrip_idem t
    have hfb : (whisperFallback wr iw).all (fun c => pstrip c.text == c.text) = true := by
      rw [List.all_eq_true]
      intro c hc
      have ht := whisperFallback_text wr iw c hc
      rw [ht, hfull]
      exact beq_self_eq_true _
    unfold whisperChunks
    cases hs : wr.segments with
    | none => exact hfb
    | some l =>
      cases hl : l.isEmpty with
      | true => simpa [hl] using hfb
      | false =>
        dsimp only
        rw [hl]
        show ((l.map (mkWhisperSeg wr iw)).all fun c => pstrip c.text == c.text) = true
        rw [List.all_eq_true]
        intro c hc
        obtain ⟨seg, _, rfl⟩ := List.mem_map.mp hc
        rw [mkWhisperSeg_text, pstrip_idem]
        exact beq_self_eq_true _

/-! ## C4 — the Overlap Reconciler case analysis -/

/-- C4: the reconciler returns `(curr_text, window_start_s)` unchanged
when the previous text is empty or shorter than 50 characters, when the
10-token boundary intersection has size at most 3, or when the current
text has at most 10 tokens; otherwise it drops the first 5 tokens of
`curr_text` and advances the start by exactly
`5 * (window_end_s - window_start_s) / token_count(curr_text)` seconds. -/
theorem reconcile_cases (prev curr : Str) (ws we : ℚ) :
    ((prev.length < 50 ∨ interCount prev curr ≤ 3 ∨ (tokens curr).length ≤ 10) →
      reconcile prev curr ws we = (curr, ws)) ∧
    (50 ≤ prev.length → 3 < interCount prev curr → 10 < (tokens curr).length →
      reconcile prev curr ws we =
        (dropTokens 5 curr, ws + 5 * (we - ws) / ((tokens curr).length : ℚ))) := by
  constructor
  · intro h
    unfold reconcile
    rcases h with h | h | h
    · rw [if_pos h]
    · by_cases h1 : prev.length < 50
      · rw [if_pos h1]
      · rw [if_neg h1, if_pos h]
    · by_cases h1 : prev.length < 50
      · rw [if_pos h1]
      · rw [if_neg h1]
        by_cases h2 : interCount prev curr ≤ 3
        · rw [if_pos h2]
        · rw [if_neg h2, if_pos h]
  · intro h1 h2 h3
    unfold reconcile
    rw [if_neg (by omega), if_neg (by omega), if_neg (by omega)]

/-- Previous-segment text used in the reconciler examples: 50 characters,
10 tokens. -/
def prevSample : Str := "aaaaa bbbb cccc dddd eeee ffff gggg hhhh iiii jjjj".data

/-- Current-window text used in the reconciler examples: 11 tokens, 4 of
which also occur among the last 10 tokens of `prevSample`. -/
def currSample : Str := "aaaaa bbbb cccc dddd u1 u2 u3 u4 u5 u6 u7".data

/-- C4 (witness): at the sample pair all three trimming conditions hold
and the reconciler drops 5 tokens and advances the start. -/
theorem reconcile_cases_witness :
    50 ≤ prevSample.length ∧ 3 < interCount prevSample currSample ∧
    10 < (tokens currSample).length ∧
    reconcile prevSample currSample 5 25 =
      (dropTokens 5 currSample, 5 + 5 * (25 - 5) / ((tokens currSample).length : ℚ)) :=
  ⟨by decide, by decide, by decide,
    (reconcile_cases prevSample currSample 5 25).2 (by decide) (by decide) (by decide)⟩

/-! ## C5 — reconciliation only trims and advances -/

lemma dropOneTok_suffix (s : Str) : dropOneTok s <:+ s := by
  have h1 := List.dropWhile_suffix (l := s) isWsChar
  have h2 := List.dropWhile_suffix (l := s.dropWhile isWsChar) (fun c => !(isWsChar c))
  exact h2.trans h1

lemma dropToksAux_suffix (k : Nat) : ∀ s : Str, dropToksAux k s <:+ s := by
  induction k with
  | zero => intro s; exact List.suffix_refl s
  | succ k ih =>
    intro s
    exact (ih (dropOneTok s)).trans (dropOneTok_suffix s)

lemma dropTokens_suffix (k : Nat) (s : Str) : dropTokens k s <:+ s := by
  have h1 := List.dropWhile_suffix (l := dropToksAux k s) isWsChar
  exact h1.trans (dropToksAux_suffix k s)

/-- C5 (amended): for windows with `window_start_s ≤ window_end_s` the
reconciler returns a suffix of `curr_text` (only a prefix is removed) and
a start time that is ≥ `window_start_s`.  (The further claim that segment
start times are non-decreasing across the emitted list fails; see the
counterexample.) -/
theorem reconcile_monotone (prev curr : Str) (ws we : ℚ) (h : ws ≤ we) :
    (reconcile prev curr ws we).1 <:+ curr ∧ ws ≤ (reconcile prev curr ws we).2 := by
  unfold reconcile
  split_ifs with h1 h2 h3
  · exact ⟨List.suffix_refl curr, le_refl ws⟩
  · exact ⟨List.suffix_refl curr, le_refl ws⟩
  · exact ⟨List.suffix_refl curr, le_refl ws⟩
  · refine ⟨dropTokens_suffix 5 curr, ?_⟩
    have hn : (0 : ℚ) < ((tokens curr).length : ℚ) := by
      have hpos : 0 < (tokens curr).length := by omega
      exact_mod_cast hpos
    have hadv : 0 ≤ 5 * (we - ws) / ((tokens curr).length : ℚ) := by
      apply div_nonneg
      · linarith
      · linarith
    linarith

/-- C5 (witness): the amended statement at the sample inputs. -/
theorem reconcile_monotone_witness :
    (0 : ℚ) ≤ 1 ∧ ((reconcile prevSample currSample 0 1).1 <:+ currSample ∧
      (0 : ℚ) ≤ (reconcile prevSample currSample 0 1).2) :=
  ⟨by decide, reconcile_monotone prevSample currSample 0 1 (by decide)⟩

/-- Step equation of the pipeline loop on a cons cell. -/
lemma runPipeline_cons (sr : Nat) (w : Nat × Nat) (txt : Str)
    (rest : List ((Nat × Nat) × Str)) (prevText : Str) (nextIdx : Nat) :
    runPipeline sr ((w, txt) :: rest) prevText nextIdx =
      if (pstrip (reconcile prevText txt ((w.1 : ℚ) / (sr : ℚ))
          ((w.2 : ℚ) / (sr : ℚ))).1).isEmpty then
        runPipeline sr rest prevText nextIdx
      else
        ⟨nextIdx,
         pstrip (reconcile prevText txt ((w.1 : ℚ) / (sr : ℚ)) ((w.2 : ℚ) / (sr : ℚ))).1,
         (reconcile prevText txt ((w.1 : ℚ) / (sr : ℚ)) ((w.2 : ℚ) / (sr : ℚ))).2,
         (w.2 : ℚ) / (sr : ℚ)⟩ ::
          runPipeline sr rest
            (pstrip (reconcile prevText txt ((w.1 : ℚ) / (sr : ℚ))
              ((w.2 : ℚ) / (sr : ℚ))).1) (nextIdx + 1) :=
  rfl

/-- Third decoded text of the counterexample run. -/
def thirdSample : Str := "zz yy".data

/-- C5 (counterexample): with a large overlap (window length 20 s,
overlap 15 s) the trimmed second segment starts at 155/11 ≈ 14.09 s while
the untrimmed third segment starts at 10 s, so `start_time` across the
emitted list is not non-decreasing; and with `window_end_s <
window_start_s` the reconciler rewinds the start below `window_start_s`. -/
theorem start_time_monotonic_cex :
    ((transcriptSegments 30 1 20 15 [prevSample, currSample, thirdSample]).map
        (·.startS) = [0, 155 / 11, 10]) ∧
    ¬ ((155 : ℚ) / 11 ≤ 10) ∧
    (reconcile prevSample currSample 1 0).2 < 1 := by
  have hr2 : ∀ ws we : ℚ, reconcile prevSample currSample ws we =
      (dropTokens 5 currSample, ws + 5 * (we - ws) / 11) := by
    intro ws we
    unfold reconcile
    rw [if_neg (by decide), if_neg (by decide), if_neg (by decide)]
    rw [show (tokens currSample).length = 11 from by decide]
    norm_num
  refine ⟨?_, by norm_num, ?_⟩
  · have hzip : (planChunks 30 1 20 15).zip [prevSample, currSample, thirdSample] =
        [((0, 20), prevSample), ((5, 25), currSample), ((10, 30), thirdSample)] := by
      rw [show planChunks 30 1 20 15 = [(0, 20), (5, 25), (10, 30)] from by decide]
      rfl
    unfold transcriptSegments
    rw [hzip]
    rw [runPipeline_cons]
    rw [show ∀ ws we : ℚ, reconcile [] prevSample ws we = (prevSample, ws) from
      fun ws we => by unfold reconcile; rw [if_pos (by decide)]]
    rw [show pstrip prevSample = prevSample from by decide]
    rw [if_neg (by decide)]
    rw [runPipeline_cons]
    rw [hr2]
    rw [show pstrip (dropTokens 5 currSample) = dropTokens 5 currSample from by decide]
    rw [if_neg (by decide)]
    rw [runPipeline_cons]
    rw [show ∀ ws we : ℚ, reconcile (dropTokens 5 currSample) thirdSample ws we =
        (thirdSample, ws) from fun ws we => by unfold reconcile; rw [if_pos (by decide)]]
    rw [show pstrip thirdSample = thirdSample from by decide]
    rw [if_neg (by decide)]
    show [(⟨1, prevSample, ((0 : ℕ) : ℚ) / ((1 : ℕ) : ℚ), ((20 : ℕ) : ℚ) / ((1 : ℕ) : ℚ)⟩ : Segment),
        ⟨2, dropTokens 5 currSample,
          ((5 : ℕ) : ℚ) / ((1 : ℕ) : ℚ) +
            5 * (((25 : ℕ) : ℚ) / ((1 : ℕ) : ℚ) - ((5 : ℕ) : ℚ) / ((1 : ℕ) : ℚ)) / 11,
          ((25 : ℕ) : ℚ) / ((1 : ℕ) : ℚ)⟩,
        ⟨3, thirdSample, ((10 : ℕ) : ℚ) / ((1 : ℕ) : ℚ),
          ((30 : ℕ) : ℚ) / ((1 : ℕ) : ℚ)⟩].map (·.startS) = [0, 155 / 11, 10]
    simp only [List.map]
    norm_num
  · rw [hr2 1 0]
    norm_num



/-! ## C3 — Chunk Planner invariants -/

lemma getLastD_default_irrel {α : Type} (l : List α) (h : l ≠ []) (d d' : α) :
    l.getLastD d = l.getLastD d' := by
  cases l with
  | nil => exact absurd rfl h
  | cons a t => rfl

/-- Invariants of the planner loop: with `0 < ov < maxc`, starting at
`s < total` with enough fuel, the produced windows begin at `s`, stay in
bounds and non-empty, end exactly at `total`, are chained by
`next.start + ov = prev.end` with strictly growing starts and ends, and
cover `[s, total)`. -/
lemma windowsFrom_inv (total maxc ov : Nat) (hmc : 0 < maxc) (hov : 0 < ov)
    (hlt : ov < maxc) :
    ∀ (fuel s : Nat), s < total → total ≤ s + maxc + fuel →
      (∃ rest, windowsFrom total maxc ov fuel s = (s, min (s + maxc) total) :: rest) ∧
      (∀ p ∈ windowsFrom total maxc ov fuel s, s ≤ p.1 ∧ p.1 < p.2 ∧ p.2 ≤ total) ∧
      ((windowsFrom total maxc ov fuel s).getLastD (0, 0)).2 = total ∧
      List.Chain' (fun p q => q.1 + ov = p.2 ∧ p.1 < q.1 ∧ p.2 < q.2)
        (windowsFrom total maxc ov fuel s) ∧
      (∀ n, s ≤ n → n < total →
        ∃ p ∈ windowsFrom total maxc ov fuel s, p.1 ≤ n ∧ n < p.2) := by
  intro fuel
  induction fuel with
  | zero =>
    intro s hs hle
    have hmin : min (s + maxc) total = total := by omega
    have hstep : windowsFrom total maxc ov 0 s = [(s, total)] := by
      rw [windowsFrom, hmin]
    rw [hstep]
    refine ⟨⟨[], by rw [hmin]⟩, ?_, rfl, ?_, ?_⟩
    · intro p hp
      rcases List.mem_singleton.mp hp with rfl
      exact ⟨le_refl s, hs, le_refl total⟩
    · exact List.chain'_singleton _
    · intro n h1 h2
      exact ⟨(s, total), List.mem_singleton.mpr rfl, h1, h2⟩
  | succ fuel ih =>
    intro s hs hle
    by_cases he : min (s + maxc) total < total
    · have hsm : s + maxc < total := by omega
      have hemin : min (s + maxc) total = s + maxc := by omega
      have hstep : windowsFrom total maxc ov (fuel + 1) s =
          (s, s + maxc) :: windowsFrom total maxc ov fuel (s + maxc - ov) := by
        rw [windowsFrom]
        simp only [hemin, if_pos hsm]
      have hs' : s + maxc - ov < total := by omega
      have hle' : total ≤ (s + maxc - ov) + maxc + fuel := by omega
      obtain ⟨⟨rest, hhead⟩, hmem, hlast, hchain, hcov⟩ := ih (s + maxc - ov) hs' hle'
      have hw'ne : windowsFrom total maxc ov fuel (s + maxc - ov) ≠ [] := by
        rw [hhead]
        exact List.cons_ne_nil _ _
      rw [hstep]
      refine ⟨⟨windowsFrom total maxc ov fuel (s + maxc - ov), by rw [hemin]⟩,
        ?_, ?_, ?_, ?_⟩
      · intro p hp
        rcases List.mem_cons.mp hp with rfl | hp
        · exact ⟨le_refl s, by omega, by omega⟩
        · have hmp := hmem p hp
          exact ⟨by omega, hmp.2.1, hmp.2.2⟩
      · rw [List.getLastD_cons]
        rw [getLastD_default_irrel _ hw'ne (s, s + maxc) (0, 0)]
        exact hlast
      · rw [List.chain'_cons']
        refine ⟨?_, hchain⟩
        intro q hq
        rw [hhead] at hq
        simp only [List.head?_cons, Option.mem_def, Option.some.injEq] at hq
        subst hq
        refine ⟨by omega, by omega, by omega⟩
      · intro n h1 h2
        by_cases hn : n < s + maxc
        · exact ⟨(s, s + maxc), List.mem_cons_self _ _, h1, hn⟩
        · have h1' : s + maxc - ov ≤ n := by omega
          obtain ⟨p, hp, hps⟩ := hcov n h1' h2
          exact ⟨p, List.mem_cons_of_mem _ hp, hps⟩
    · have hmin : min (s + maxc) total = total := by omega
      have hstep : windowsFrom total maxc ov (fuel + 1) s = [(s, total)] := by
        rw [windowsFrom]
        simp only [hmin]
        rw [if_neg (lt_irrefl total)]
      rw [hstep]
      refine ⟨⟨[], by rw [hmin]⟩, ?_, rfl, ?_, ?_⟩
      · intro p hp
        rcases List.mem_singleton.mp hp with rfl
        exact ⟨le_refl s, hs, le_refl total⟩
      · exact List.chain'_singleton _
      · intro n h1 h2
        exact ⟨(s, total), List.mem_singleton.mpr rfl, h1, h2⟩

/-- C3: for positive `total_samples`, `sample_rate`, `max_chunk_seconds`,
`overlap_seconds` with `overlap < max_chunk`, the planner's windows have
strictly increasing starts, no window is empty, their union is exactly
`[0, total_samples)` (full coverage, no gaps, nothing outside), and every
consecutive pair overlaps in exactly the `overlap_samples`-long range
`[next.start, prev.end)` (the final window may merely be shorter). -/
theorem chunk_plan_inv (ts sr ms ov : Nat) (h1 : 0 < ts) (h2 : 0 < sr)
    (h3 : 0 < ms) (h4 : 0 < ov) (h5 : ov < ms) :
    List.Chain' (fun p q => p.1 < q.1) (planChunks ts sr ms ov) ∧
    (∀ p ∈ planChunks ts sr ms ov, p.1 < p.2) ∧
    (∀ n, n < ts ↔ ∃ p ∈ planChunks ts sr ms ov, p.1 ≤ n ∧ n < p.2) ∧
    List.Chain' (fun p q => q.1 + ov * sr = p.2 ∧ q.1 < p.2 ∧ p.2 < q.2)
      (planChunks ts sr ms ov) := by
  have hms : 0 < ms * sr := Nat.mul_pos h3 h2
  have hos : 0 < ov * sr := Nat.mul_pos h4 h2
  have holt : ov * sr < ms * sr := by
    have h6 : ov + 1 ≤ ms := h5
    have h7 : (ov + 1) * sr ≤ ms * sr := Nat.mul_le_mul_right sr h6
    have h8 : (ov + 1) * sr = ov * sr + sr := by ring
    omega
  unfold planChunks chunkPlan
  by_cases hle : ts ≤ ms * sr
  · rw [if_pos hle]
    refine ⟨List.chain'_singleton _, ?_, ?_, List.chain'_singleton _⟩
    · intro p hp
      rcases List.mem_singleton.mp hp with rfl
      exact h1
    · intro n
      constructor
      · intro hn
        exact ⟨(0, ts), List.mem_singleton.mpr rfl, Nat.zero_le n, hn⟩
      · intro hex
        obtain ⟨p, hp, hpn⟩ := hex
        rcases List.mem_singleton.mp hp with rfl
        exact hpn.2
  · rw [if_neg hle]
    obtain ⟨_, hmem, _, hchain, hcov⟩ :=
      windowsFrom_inv ts (ms * sr) (ov * sr) hms hos holt ts 0 h1 (by omega)
    refine ⟨?_, ?_, ?_, ?_⟩
    · exact hchain.imp (fun a b h => h.2.1)
    · intro p hp
      exact (hmem p hp).2.1
    · intro n
      constructor
      · intro hn
        exact hcov n (Nat.zero_le n) hn
      · intro hex
        obtain ⟨p, hp, hpn⟩ := hex
        have hb := (hmem p hp).2.2
        omega
    · refine hchain.imp (fun a b h => ?_)
      exact ⟨h.1, by omega, h.2.2⟩

/-- C3 (witness): the planner invariants at Scenario B (60 samples at
rate 1, 29-sample windows, 1-sample overlap), where the plan is
`[0,29), [28,57), [56,60)`. -/
theorem chunk_plan_inv_witness :
    planChunks 60 1 29 1 = [(0, 29), (28, 57), (56, 60)] ∧
    List.Chain' (fun p q => p.1 < q.1) (planChunks 60 1 29 1) ∧
    List.Chain' (fun p q => q.1 + 1 * 1 = p.2 ∧ q.1 < p.2 ∧ p.2 < q.2)
      (planChunks 60 1 29 1) :=
  ⟨by decide,
   (chunk_plan_inv 60 1 29 1 (by decide) (by decide) (by decide) (by decide)
     (by decide)).1,
   (chunk_plan_inv 60 1 29 1 (by decide) (by decide) (by decide) (by decide)
     (by decide)).2.2.2⟩


/-! ## C8 — SRT timestamp round-trip -/

lemma digitChar_toNat (d : Nat) (h : d < 10) : (digitChar d).toNat = 48 + d := by
  interval_cases d <;> rfl

lemma digitChar_ne (d : Nat) (h : d < 10) :
    digitChar d ≠ ':' ∧ digitChar d ≠ ',' ∧ digitChar d ≠ ' ' := by
  interval_cases d <;> refine ⟨by decide, by decide, by decide⟩

lemma natStr_chars (n : Nat) : ∀ c ∈ natStr n, c ≠ ':' ∧ c ≠ ',' ∧ c ≠ ' ' := by
  induction n using Nat.strong_induction_on with
  | _ n ih =>
    intro c hc
    unfold natStr at hc
    split at hc
    case isTrue h =>
      rcases List.mem_singleton.mp hc with rfl
      exact digitChar_ne n h
    case isFalse h =>
      rcases List.mem_append.mp hc with hc | hc
      · exact ih (n / 10) (Nat.div_lt_self (by omega) (by omega)) c hc
      · rcases List.mem_singleton.mp hc with rfl
        exact digitChar_ne (n % 10) (Nat.mod_lt n (by omega))

lemma pad_chars (k n : Nat) : ∀ c ∈ pad k n, c ≠ ':' ∧ c ≠ ',' ∧ c ≠ ' ' := by
  intro c hc
  rcases List.mem_append.mp hc with hc | hc
  · rcases List.eq_of_mem_replicate hc with rfl
    exact ⟨by decide, by decide, by decide⟩
  · exact natStr_chars n c hc

/-- Variant of `parseNat` with an explicit accumulator. -/
def parseNatFrom (acc : Nat) (s : Str) : Nat :=
  s.foldl (fun a c => a * 10 + (c.toNat - 48)) acc

lemma parseNat_eq_from (s : Str) : parseNat s = parseNatFrom 0 s := rfl

lemma parseNatFrom_append (acc : Nat) (a b : Str) :
    parseNatFrom acc (a ++ b) = parseNatFrom (parseNatFrom acc a) b :=
  List.foldl_append _ _ _ _

lemma parseNatFrom_natStr (n : Nat) :
    ∀ acc : Nat, parseNatFrom acc (natStr n) = acc * 10 ^ (natStr n).length + n := by
  induction n using Nat.strong_induction_on with
  | _ n ih =>
    intro acc
    unfold natStr
    split
    case isTrue h =>
      show (acc * 10 + ((digitChar n).toNat - 48)) = acc * 10 ^ 1 + n
      rw [digitChar_toNat n h]
      omega
    case isFalse h =>
      rw [parseNatFrom_append]
      rw [ih (n / 10) (Nat.div_lt_self (by omega) (by omega))]
      show (acc * 10 ^ (natStr (n / 10)).length + n / 10) * 10 +
          ((digitChar (n % 10)).toNat - 48) =
        acc * 10 ^ (natStr (n / 10) ++ [digitChar (n % 10)]).length + n
      rw [digitChar_toNat (n % 10) (Nat.mod_lt n (by omega))]
      rw [List.length_append, List.length_singleton, pow_succ]
      have hmul : acc * (10 ^ (natStr (n / 10)).length * 10) =
          acc * 10 ^ (natStr (n / 10)).length * 10 := by ring
      rw [hmul]
      have := Nat.div_add_mod n 10
      omega

lemma parseNatFrom_zeros (m : Nat) :
    parseNatFrom 0 (List.replicate m '0') = 0 := by
  induction m with
  | zero => rfl
  | succ m ihm =>
    show parseNatFrom (0 * 10 + ('0'.toNat - 48)) (List.replicate m '0') = 0
    simpa using ihm

lemma parseNat_pad (k n : Nat) : parseNat (pad k n) = n := by
  rw [parseNat_eq_from]
  unfold pad
  rw [parseNatFrom_append, parseNatFrom_zeros, parseNatFrom_natStr]
  simp

lemma splitOnAux_nil (c : Char) (acc : Str) : splitOnAux c [] acc = [acc.reverse] :=
  rfl

lemma splitOnAux_cons (c x : Char) (r acc : Str) :
    splitOnAux c (x :: r) acc =
      if (x == c) = true then acc.reverse :: splitOnAux c r []
      else splitOnAux c r (x :: acc) :=
  rfl

lemma splitOnAux_no_sep (c : Char) (a : Str) (hna : ∀ x ∈ a, x ≠ c) :
    ∀ acc, splitOnAux c a acc = [acc.reverse ++ a] := by
  induction a with
  | nil => intro acc; simp [splitOnAux_nil]
  | cons x r ih =>
    intro acc
    have hx : (x == c) = false :=
      beq_eq_false_iff_ne.mpr (hna x (List.mem_cons_self x r))
    rw [splitOnAux_cons, if_neg (by simp [hx])]
    rw [ih (fun y hy => hna y (List.mem_cons_of_mem x hy)) (x :: acc)]
    simp

lemma splitOnAux_sep (c : Char) (a b : Str) (hna : ∀ x ∈ a, x ≠ c) :
    ∀ acc, splitOnAux c (a ++ c :: b) acc =
      (acc.reverse ++ a) :: splitOnAux c b [] := by
  induction a with
  | nil =>
    intro acc
    rw [List.nil_append, splitOnAux_cons, if_pos (beq_self_eq_true c)]
    simp
  | cons x r ih =>
    intro acc
    have hx : (x == c) = false :=
      beq_eq_false_iff_ne.mpr (hna x (List.mem_cons_self x r))
    rw [List.cons_append, splitOnAux_cons, if_neg (by simp [hx])]
    rw [ih (fun y hy => hna y (List.mem_cons_of_mem x hy)) (x :: acc)]
    simp

lemma splitOnChar_sep (c : Char) (a b : Str) (hna : ∀ x ∈ a, x ≠ c) :
    splitOnChar c (a ++ c :: b) = a :: splitOnChar c b := by
  unfold splitOnChar
  rw [splitOnAux_sep c a b hna []]
  rfl

lemma splitOnChar_no_sep (c : Char) (a : Str) (hna : ∀ x ∈ a, x ≠ c) :
    splitOnChar c a = [a] := by
  unfold splitOnChar
  rw [splitOnAux_no_sep c a hna []]
  rfl

lemma msToSRT_chars (t : Nat) : ∀ x ∈ msToSRT t, x ≠ ' ' := by
  intro x hx
  unfold msToSRT at hx
  rcases List.mem_append.mp hx with h | h
  · exact (pad_chars 2 (t / 3600000) x h).2.2
  · rcases List.mem_cons.mp h with rfl | h
    · decide
    · rcases List.mem_append.mp h with h | h
      · exact (pad_chars 2 (t / 60000 % 60) x h).2.2
      · rcases List.mem_cons.mp h with rfl | h
        · decide
        · rcases List.mem_append.mp h with h | h
          · exact (pad_chars 2 (t / 1000 % 60) x h).2.2
          · rcases List.mem_cons.mp h with rfl | h
            · decide
            · exact (pad_chars 3 (t % 1000) x h).2.2

lemma formatSRTtime_chars (q : ℚ) : ∀ x ∈ formatSRTtime q, x ≠ ' ' :=
  msToSRT_chars _

lemma parse_msToSRT (t : Nat) : parseSRTtime (msToSRT t) = some ((t : ℚ) / 1000) := by
  have hs1 : splitOnChar ':' (msToSRT t) =
      [pad 2 (t / 3600000), pad 2 (t / 60000 % 60),
        pad 2 (t / 1000 % 60) ++ ',' :: pad 3 (t % 1000)] := by
    unfold msToSRT
    rw [splitOnChar_sep ':' _ _ (fun x hx => (pad_chars 2 (t / 3600000) x hx).1)]
    rw [splitOnChar_sep ':' _ _ (fun x hx => (pad_chars 2 (t / 60000 % 60) x hx).1)]
    rw [splitOnChar_no_sep ':' _ ?hno]
    case hno =>
      intro x hx
      rcases List.mem_append.mp hx with h | h
      · exact (pad_chars 2 (t / 1000 % 60) x h).1
      · rcases List.mem_cons.mp h with rfl | h
        · decide
        · exact (pad_chars 3 (t % 1000) x h).1
  have hs2 : splitOnChar ',' (pad 2 (t / 1000 % 60) ++ ',' :: pad 3 (t % 1000)) =
      [pad 2 (t / 1000 % 60), pad 3 (t % 1000)] := by
    rw [splitOnChar_sep ',' _ _ (fun x hx => (pad_chars 2 (t / 1000 % 60) x hx).2.1)]
    rw [splitOnChar_no_sep ',' _ (fun x hx => (pad_chars 3 (t % 1000) x hx).2.1)]
  unfold parseSRTtime
  rw [hs1]
  dsimp only
  rw [hs2]
  dsimp only
  rw [parseNat_pad, parseNat_pad, parseNat_pad, parseNat_pad]
  congr 1
  have key : (t / 3600000) * 3600000 + (t / 60000 % 60) * 60000 +
      (t / 1000 % 60) * 1000 + t % 1000 = t := by omega
  have keyQ : ((t / 3600000 : ℕ) : ℚ) * 3600000 + ((t / 60000 % 60 : ℕ) : ℚ) * 60000 +
      ((t / 1000 % 60 : ℕ) : ℚ) * 1000 + ((t % 1000 : ℕ) : ℚ) = (t : ℚ) := by
    exact_mod_cast key
  field_simp
  linarith

lemma roundHalfEven_nonneg (q : ℚ) (h : 0 ≤ q) : 0 ≤ roundHalfEven q := by
  unfold roundHalfEven
  have hf : (0 : ℤ) ≤ ⌊q⌋ := Int.floor_nonneg.mpr h
  dsimp only
  split_ifs <;> omega

/-- C8: formatting a `(start, end)` pair through the SRT formatter and
parsing the rendered `"HH:MM:SS,mmm --> HH:MM:SS,mmm"` string recovers
both values to millisecond precision (i.e. rounded to 3 decimals). -/
theorem srt_roundtrip (a b : ℚ) (ha : 0 ≤ a) (hb : 0 ≤ b) :
    parseSRTpair (formatSRTpair a b) = some (round3 a, round3 b) := by
  have hfmt : ∀ q : ℚ, 0 ≤ q → parseSRTtime (formatSRTtime q) = some (round3 q) := by
    intro q hq
    unfold formatSRTtime
    rw [parse_msToSRT]
    unfold round3
    congr 1
    have hr : (0 : ℤ) ≤ roundHalfEven (q * 1000) :=
      roundHalfEven_nonneg _ (by positivity)
    congr 1
    exact_mod_cast Int.toNat_of_nonneg hr
  have hsplit : splitOnChar ' ' (formatSRTpair a b) =
      [formatSRTtime a, "-->".data, formatSRTtime b] := by
    unfold formatSRTpair
    have harr : (" --> ".data : Str) = ' ' :: ('-' :: '-' :: '>' :: ' ' :: []) := rfl
    rw [harr]
    rw [show formatSRTtime a ++ (' ' :: ('-' :: '-' :: '>' :: ' ' :: [])) ++ formatSRTtime b =
        formatSRTtime a ++ ' ' :: (('-' :: '-' :: '>' :: []) ++ ' ' :: formatSRTtime b) from by
      simp]
    rw [splitOnChar_sep ' ' _ _ (formatSRTtime_chars a)]
    rw [splitOnChar_sep ' ' _ _ (by
      intro x hx
      simp only [List.mem_cons, List.not_mem_nil, or_false] at hx
      rcases hx with rfl | rfl | rfl <;> decide)]
    rw [splitOnChar_no_sep ' ' _ (formatSRTtime_chars b)]
  unfold parseSRTpair
  rw [hsplit]
  dsimp only
  rw [if_pos rfl]
  rw [hfmt a ha, hfmt b hb]

/-- C8 (witness): the round-trip theorem at `(2, 3)` seconds. -/
theorem srt_roundtrip_witness :
    (0 : ℚ) ≤ 2 ∧ (0 : ℚ) ≤ 3 ∧
    parseSRTpair (formatSRTpair 2 3) = some (round3 2, round3 3) :=
  ⟨by decide, by decide, srt_roundtrip 2 3 (by decide) (by decide)⟩

end TextSense
